import Mathlib

/-!
# Verification of `labeled4nothing.py`

A shallow embedding of the single-file LaTeX cross-reference checker
`labeled4nothing.py`.  Strings are modelled as `List Char`; Python sets of
strings as `Finset (List Char)`.

The regular-expression scans of the source are embedded as explicit
left-to-right scanners:

* `re.findall` becomes `reFindAll step`, which walks the text one position at
  a time, at each position either takes the (deterministic) match produced by
  `step` and resumes after it (non-overlapping matches), or advances by one
  character;
* the pattern `\label\{([^}]+)\}` becomes `matchLabelAt` (literal head
  `\label{`, then a maximal nonempty run of non-`}` characters, then `}`);
* the pattern `\(?:eq|C|c|auto|name|page|)?[Rr]ef\*?\{([^}]+)\}` becomes
  `matchRefAt` (the alternatives of the prefix group are mutually exclusive
  in front of `[Rr]ef`, so trying them in order is faithful to the regex
  backtracking semantics);
* `re.search(p, line)` for the literal begin/end markers becomes the
  substring test `containsSub`.
-/

namespace Labeled4Nothing

/-- The characters removed by Python's `str.strip()` (ASCII whitespace). -/
def pySpace (c : Char) : Bool :=
  c == ' ' || c == '\t' || c == '\n' || c == '\r' || c == Char.ofNat 11 || c == Char.ofNat 12

/-- Python `s.strip()`: remove leading and trailing whitespace. -/
def pyStrip (s : List Char) : List Char :=
  ((s.dropWhile pySpace).reverse.dropWhile pySpace).reverse

/-- Python `s.split(sep)` for a one-character separator: `""` splits to
`[""]`, separators at the ends produce empty pieces. -/
def splitOnChar (sep : Char) : List Char → List (List Char)
  | [] => [[]]
  | c :: cs =>
    if c == sep then
      [] :: splitOnChar sep cs
    else
      match splitOnChar sep cs with
      | [] => [[c]]
      | g :: gs => (c :: g) :: gs

/-- `content.split('\n')`, as used by `extract_numbered_equations`. -/
def splitNl (content : List Char) : List (List Char) := splitOnChar '\n' content

/-- `re.search` for a literal pattern: does `needle` occur contiguously in
`haystack`? -/
def containsSub : List Char → List Char → Bool
  | [], needle => needle.isEmpty
  | c :: t, needle => needle.isPrefixOf (c :: t) || containsSub t needle

/-- The `([^}]+)\}` tail of the argument patterns: a maximal nonempty run of
non-`}` characters followed by `}`.  Returns the captured run and the text
after the closing brace. -/
def braceArg (l : List Char) : Option (List Char × List Char) :=
  match l.dropWhile (fun c => !(c == '}')) with
  | '}' :: rest =>
    if (l.takeWhile (fun c => !(c == '}'))).isEmpty then none
    else some (l.takeWhile (fun c => !(c == '}')), rest)
  | _ => none

/-- The literal head `\label{` of the label pattern. -/
def labelHead : List Char := "\\label".data ++ ['{']

/-- One match attempt of `\\label\{([^}]+)\}` anchored at the current
position: the captured group and the rest of the text after the match. -/
def matchLabelAt (l : List Char) : Option (List Char × List Char) :=
  if labelHead.isPrefixOf l then braceArg (l.drop labelHead.length) else none

/-- `re.findall` for a deterministic anchored matcher `step`, with explicit
fuel (one unit per scan position): leftmost matches, non-overlapping, scanning
resumes after each match. -/
def reFindAllF (step : List Char → Option (List Char × List Char)) :
    Nat → List Char → List (List Char)
  | 0, _ => []
  | _ + 1, [] => []
  | fuel + 1, c :: cs =>
    match step (c :: cs) with
    | some (m, rest) => m :: reFindAllF step fuel rest
    | none => reFindAllF step fuel cs

/-- `re.findall` for a deterministic anchored matcher: fuel `l.length` always
suffices because a match consumes at least one character. -/
def reFindAll (step : List Char → Option (List Char × List Char)) (l : List Char) :
    List (List Char) :=
  reFindAllF step l.length l

/-- `re.findall(r'\\label\{([^}]+)\}', content)`. -/
def findLabels (content : List Char) : List (List Char) :=
  reFindAll matchLabelAt content

/-- `extract_labels` (lines 21-34): the set of captured label names. -/
def extract_labels (content : List Char) : Finset (List Char) :=
  (findLabels content).toFinset

/-- The alternatives of the prefix group `(?:eq|C|c|auto|name|page|)?`, in the
order the regex engine tries them (the optional group as a whole adds nothing
beyond the empty alternative already present). -/
def refPrefixes : List (List Char) :=
  ["eq".data, "C".data, "c".data, "auto".data, "name".data, "page".data, []]

/-- Try one alternative `p` of the prefix group followed by `[Rr]ef`; returns
the text after `...ef` on success. -/
def afterRefName (p t : List Char) : Option (List Char) :=
  if p.isPrefixOf t then
    match t.drop p.length with
    | 'R' :: 'e' :: 'f' :: v => some v
    | 'r' :: 'e' :: 'f' :: v => some v
    | _ => none
  else none

/-- The optional `\*?` after the command name. -/
def skipStar : List Char → List Char
  | [] => []
  | c :: w => if c == '*' then w else c :: w

/-- The part of the reference pattern after the leading backslash. -/
def matchRefBody (t : List Char) : Option (List Char × List Char) :=
  match refPrefixes.findSome? (fun p => afterRefName p t) with
  | some v =>
    match skipStar v with
    | '{' :: w => braceArg w
    | _ => none
  | none => none

/-- One match attempt of `\\(?:eq|C|c|auto|name|page|)?[Rr]ef\*?\{([^}]+)\}`
anchored at the current position. -/
def matchRefAt : List Char → Option (List Char × List Char)
  | [] => none
  | c :: t => if c == '\\' then matchRefBody t else none

/-- `re.findall(ref_pattern, content)`: the raw captured arguments. -/
def findRefs (content : List Char) : List (List Char) :=
  reFindAll matchRefAt content

/-- `extract_references` (lines 37-60): every raw capture is split on commas,
each piece stripped of surrounding whitespace and added to the set. -/
def extract_references (content : List Char) : Finset (List Char) :=
  ((findRefs content).flatMap (fun m => (splitOnChar ',' m).map pyStrip)).toFinset

/-- The `numbered_envs` list (lines 77-80), in source order. -/
def numbered_envs : List (List Char) :=
  ["equation".data, "align".data, "gather".data, "multline".data, "flalign".data,
   "alignat".data, "eqnarray".data]

/-- The literal begin marker `\begin{env}`. -/
def beginMarker (env : List Char) : List Char := "\\begin".data ++ '{' :: (env ++ ['}'])

/-- The literal end marker `\end{env}`. -/
def endMarker (env : List Char) : List Char := "\\end".data ++ '{' :: (env ++ ['}'])

/-- The `for env in numbered_envs: if re.search(begin_pattern, line)` loop
(lines 87-91): the first environment in list order whose begin marker occurs
in the line. -/
def beginEnvAt (line : List Char) : Option (List Char) :=
  numbered_envs.find? (fun env => containsSub line (beginMarker env))

/-- `re.search(r'\\label\{([^}]+)\}', line)` (line 103): the first label
match in a line, its captured group. -/
def firstLabel : List Char → Option (List Char)
  | [] => none
  | c :: cs =>
    match matchLabelAt (c :: cs) with
    | some (m, _) => some m
    | none => firstLabel cs

/-- The label bookkeeping of the inner loop (lines 95-105): each line that
contains a label match overwrites the previously recorded label. -/
def lastLabel (bs : List (List Char)) : Option (List Char) :=
  bs.foldl (fun acc line => match firstLabel line with | some m => some m | none => acc) none

/-- The inner `while j < len(lines)` loop (lines 98-113): accumulate lines up
to and including the first line containing the end marker; `none` when the
environment is never closed.  Returns the accumulated span and the lines
after it. -/
def scanBlock (env : List Char) : List (List Char) → Option (List (List Char) × List (List Char))
  | [] => none
  | l :: t =>
    if containsSub l (endMarker env) then
      some ([l], t)
    else
      match scanBlock env t with
      | some (bs, rest) => some (l :: bs, rest)
      | none => none

/-- `'\n'.join(lines)`. -/
def joinNl : List (List Char) → List Char
  | [] => []
  | [l] => l
  | l :: ls => l ++ '\n' :: joinNl ls

/-- The outer `while i < len(lines)` scan of `extract_numbered_equations`
(lines 82-116), with the 0-based index of the current line and explicit fuel
(one unit per loop entry; each step consumes at least one line).  A recorded
block is `(start line (1-indexed), stripped span text, recorded label)`.
After a complete block the scan resumes on the line after the end marker;
after an unterminated begin marker it resumes on the next line. -/
def scanLinesF : Nat → Nat → List (List Char) → List (Nat × List Char × Option (List Char))
  | 0, _, _ => []
  | _ + 1, _, [] => []
  | fuel + 1, i, l :: rest =>
    match beginEnvAt l with
    | none => scanLinesF fuel (i + 1) rest
    | some env =>
      match scanBlock env (l :: rest) with
      | none => scanLinesF fuel (i + 1) rest
      | some (bs, after) =>
        (i + 1, pyStrip (joinNl bs), lastLabel bs) :: scanLinesF fuel (i + bs.length) after

/-- `extract_numbered_equations` (lines 63-118). -/
def extract_numbered_equations (content : List Char) :
    List (Nat × List Char × Option (List Char)) :=
  scanLinesF (splitNl content).length 0 (splitNl content)

/-- The set difference `labels - references` of `find_unreferenced_labels`
(line 140); the pure core of that function once the file is read. -/
def unreferenced_labels (content : List Char) : Finset (List Char) :=
  extract_labels content \ extract_references content

/-- The filter condition of `find_unreferenced_equations` (line 171):
`label is None or label not in references`. -/
def eqUnreferenced (refs : Finset (List Char)) (lab : Option (List Char)) : Bool :=
  match lab with
  | none => true
  | some l => decide (l ∉ refs)

/-- The accumulating `for` loop of `find_unreferenced_equations`
(lines 166-172). -/
def unrefEqLoop (refs : Finset (List Char)) :
    List (Nat × List Char × Option (List Char)) → List (Nat × List Char)
  | [] => []
  | (n, txt, lab) :: rest =>
    if eqUnreferenced refs lab then
      (n, txt) :: unrefEqLoop refs rest
    else
      unrefEqLoop refs rest

/-- The pure core of `find_unreferenced_equations` (lines 145-174) once the
file is read. -/
def find_unreferenced_equations (content : List Char) : List (Nat × List Char) :=
  unrefEqLoop (extract_references content) (extract_numbered_equations content)

/-- An input file on disk, for the read-counting model of the orchestration
layer (`find_unreferenced_labels` / `find_unreferenced_equations` each open
and read the file themselves). -/
structure TexFile where
  content : List Char

/-- `open(...); f.read()`: returns the content and increments the count of
read operations performed so far. -/
def readTexFile (f : TexFile) (reads : Nat) : List Char × Nat :=
  (f.content, reads + 1)

/-- `find_unreferenced_labels` (lines 121-142) with its file read made
explicit: read the file, then compute `labels - references`. -/
def find_unreferenced_labelsRun (f : TexFile) (reads : Nat) : Finset (List Char) × Nat :=
  match readTexFile f reads with
  | (content, r1) => (unreferenced_labels content, r1)

/-- `find_unreferenced_equations` (lines 145-174) with its file read made
explicit. -/
def find_unreferenced_equationsRun (f : TexFile) (reads : Nat) : List (Nat × List Char) × Nat :=
  match readTexFile f reads with
  | (content, r1) => (find_unreferenced_equations content, r1)

/-- The analysis phase of `main` (lines 196-197): call
`find_unreferenced_labels`, then `find_unreferenced_equations`, threading the
count of file reads. -/
def analysisRun (f : TexFile) (reads : Nat) :
    (Finset (List Char) × List (Nat × List Char)) × Nat :=
  match find_unreferenced_labelsRun f reads with
  | (ls, r1) =>
    match find_unreferenced_equationsRun f r1 with
    | (es, r2) => ((ls, es), r2)

/-- The observable outcome of one invocation of `main` (lines 177-251). -/
inductive MainOutcome where
  | usageError
  | fileNotFound
  | success (unrefLabels : Finset (List Char)) (unrefEqs : List (Nat × List Char))

/-- What one invocation of `main` does: its outcome, its exit status, and
whether the output report file was written. -/
structure MainResult where
  outcome : MainOutcome
  exitCode : Nat
  wroteReport : Bool

/-- The control flow of `main` (lines 177-251): `sys.argv` must have exactly
two entries (script name and input path); a path that does not exist stops
the run with status 1 before any output is written; otherwise the two
derived results are computed from the file content and the report is
written (exit status 0). -/
def main_model (argv : List (List Char)) (fileExists : List Char → Bool)
    (readFile : List Char → List Char) : MainResult :=
  match argv with
  | [_, path] =>
    if fileExists path then
      { outcome := MainOutcome.success (unreferenced_labels (readFile path))
          (find_unreferenced_equations (readFile path)),
        exitCode := 0, wroteReport := true }
    else
      { outcome := MainOutcome.fileNotFound, exitCode := 1, wroteReport := false }
  | _ => { outcome := MainOutcome.usageError, exitCode := 1, wroteReport := false }

/-! ## Basic lemmas about the anchored matchers -/

theorem dropWhile_append_cons {p : Char → Bool} :
    ∀ (xs : List Char) (y : Char) (ys : List Char), (∀ a ∈ xs, p a = true) → p y = false →
      (xs ++ y :: ys).dropWhile p = y :: ys := by
  intro xs
  induction xs with
  | nil => intro y ys _ hy; simp [List.dropWhile_cons, hy]
  | cons a xs ih =>
    intro y ys hall hy
    have ha : p a = true := hall a (List.mem_cons_self a xs)
    simpa [List.dropWhile_cons, ha] using ih y ys (fun b hb => hall b (List.mem_cons_of_mem a hb)) hy

theorem takeWhile_append_cons {p : Char → Bool} :
    ∀ (xs : List Char) (y : Char) (ys : List Char), (∀ a ∈ xs, p a = true) → p y = false →
      (xs ++ y :: ys).takeWhile p = xs := by
  intro xs
  induction xs with
  | nil => intro y ys _ hy; simp [List.takeWhile_cons, hy]
  | cons a xs ih =>
    intro y ys hall hy
    have ha : p a = true := hall a (List.mem_cons_self a xs)
    simpa [List.takeWhile_cons, ha] using ih y ys (fun b hb => hall b (List.mem_cons_of_mem a hb)) hy

theorem braceArg_eq_some {l name rest : List Char} (h : braceArg l = some (name, rest)) :
    name ++ '}' :: rest = l ∧ name ≠ [] := by
  unfold braceArg at h
  split at h
  case _ rest' heq =>
    split at h
    case isTrue => exact absurd h (by simp)
    case isFalse hne =>
      have h1 : l.takeWhile (fun c => !(c == '}')) = name ∧ rest' = rest := by
        constructor
        · exact congrArg Prod.fst (Option.some.inj h)
        · exact congrArg Prod.snd (Option.some.inj h)
      obtain ⟨h1, h2⟩ := h1
      subst h1; subst h2
      refine ⟨?_, ?_⟩
      · have := List.takeWhile_append_dropWhile (fun c => !(c == '}')) l
        rw [heq] at this
        exact this
      · intro hnil
        rw [hnil] at hne
        simp at hne
  case _ => exact absurd h (by simp)

theorem braceArg_construct (name v : List Char) (hne : name ≠ [])
    (hnb : ∀ c ∈ name, (c == '}') = false) :
    braceArg (name ++ '}' :: v) = some (name, v) := by
  have hpt : ∀ a ∈ name, (fun c => !(c == '}')) a = true := by
    intro a ha; simp [hnb a ha]
  have hpy : (fun c => !(c == '}')) '}' = false := by simp
  have hdw := dropWhile_append_cons name '}' v hpt hpy
  have htw := takeWhile_append_cons name '}' v hpt hpy
  have hie : name.isEmpty = false := by
    cases name with
    | nil => exact absurd rfl hne
    | cons a t => rfl
  unfold braceArg
  rw [hdw, htw]
  simp [hie]

theorem braceArg_length {l name rest : List Char} (h : braceArg l = some (name, rest)) :
    rest.length < l.length := by
  obtain ⟨h1, _⟩ := braceArg_eq_some h
  have := congrArg List.length h1
  simp [List.length_append] at this
  omega

theorem matchLabelAt_eq_some {l name rest : List Char} (h : matchLabelAt l = some (name, rest)) :
    l = labelHead ++ (name ++ '}' :: rest) ∧ name ≠ [] := by
  unfold matchLabelAt at h
  split at h
  case isTrue hp =>
    obtain ⟨t, ht⟩ := List.isPrefixOf_iff_prefix.mp hp
    have hdrop : l.drop labelHead.length = t := by rw [← ht, List.drop_left]
    rw [hdrop] at h
    obtain ⟨h1, h2⟩ := braceArg_eq_some h
    refine ⟨?_, h2⟩
    rw [← ht, h1]
  case isFalse => exact absurd h (by simp)

theorem matchLabelAt_length {l name rest : List Char} (h : matchLabelAt l = some (name, rest)) :
    rest.length < l.length := by
  unfold matchLabelAt at h
  split at h
  case isTrue =>
    have := braceArg_length h
    have hd : (l.drop labelHead.length).length ≤ l.length := by
      simp [List.length_drop]
    omega
  case isFalse => exact absurd h (by simp)

theorem matchLabelAt_construct (name v : List Char) (hne : name ≠ [])
    (hnb : ∀ c ∈ name, (c == '}') = false) :
    matchLabelAt (labelHead ++ (name ++ '}' :: v)) = some (name, v) := by
  unfold matchLabelAt
  rw [if_pos (List.isPrefixOf_iff_prefix.mpr ⟨name ++ '}' :: v, rfl⟩), List.drop_left]
  exact braceArg_construct name v hne hnb

theorem matchLabelAt_not_backslash {c : Char} (hc : c ≠ '\\') (l : List Char) :
    matchLabelAt (c :: l) = none := by
  unfold matchLabelAt
  rw [if_neg]
  intro hp
  obtain ⟨t, ht⟩ := List.isPrefixOf_iff_prefix.mp hp
  have : '\\' = c := by
    have := congrArg (fun s => s.head?) ht
    simpa [labelHead] using this
  exact hc this.symm

theorem afterRefName_length {p t v : List Char} (h : afterRefName p t = some v) :
    v.length ≤ t.length := by
  unfold afterRefName at h
  split at h
  case isTrue =>
    have hd : (t.drop p.length).length ≤ t.length := by simp [List.length_drop]
    split at h
    case _ heq =>
      have hv := Option.some.inj h
      subst hv
      have hlen := congrArg List.length heq
      simp at hlen
      omega
    case _ heq =>
      have hv := Option.some.inj h
      subst hv
      have hlen := congrArg List.length heq
      simp at hlen
      omega
    case _ => exact absurd h (by simp)
  case isFalse => exact absurd h (by simp)

theorem skipStar_length (v : List Char) : (skipStar v).length ≤ v.length := by
  cases v with
  | nil => simp [skipStar]
  | cons c w =>
    unfold skipStar
    by_cases hc : c == '*'
    · simp [hc]
    · simp [hc]

theorem matchRefBody_length {t m r : List Char} (h : matchRefBody t = some (m, r)) :
    r.length < t.length := by
  unfold matchRefBody at h
  split at h
  case _ v hv =>
    obtain ⟨p, _, hp⟩ := List.exists_of_findSome?_eq_some hv
    have hvt : v.length ≤ t.length := afterRefName_length hp
    have hsv : (skipStar v).length ≤ v.length := skipStar_length v
    split at h
    case _ w hw =>
      have hwl : w.length + 1 = (skipStar v).length := by rw [hw]; rfl
      have := braceArg_length h
      omega
    case _ => exact absurd h (by simp)
  case _ => exact absurd h (by simp)

theorem matchRefAt_length {l m r : List Char} (h : matchRefAt l = some (m, r)) :
    r.length < l.length := by
  cases l with
  | nil => exact absurd h (by simp [matchRefAt])
  | cons c t =>
    simp only [matchRefAt] at h
    by_cases hc : (c == '\\') = true
    · rw [if_pos hc] at h
      have := matchRefBody_length h
      simp only [List.length_cons]
      omega
    · rw [if_neg hc] at h
      exact absurd h (by simp)

theorem matchRefAt_not_backslash {c : Char} (hc : c ≠ '\\') (l : List Char) :
    matchRefAt (c :: l) = none := by
  simp only [matchRefAt]
  rw [if_neg]
  simpa using hc

/-! ## Generic `re.findall` lemmas -/

theorem reFindAllF_fuel (step : List Char → Option (List Char × List Char))
    (Hstep : ∀ l m r, step l = some (m, r) → r.length < l.length) :
    ∀ fuel l, l.length ≤ fuel → reFindAllF step fuel l = reFindAllF step l.length l := by
  intro fuel
  induction fuel using Nat.strong_induction_on with
  | _ fuel ih =>
    intro l hl
    cases fuel with
    | zero =>
      cases l with
      | nil => rfl
      | cons c cs => simp at hl
    | succ f =>
      cases l with
      | nil => rfl
      | cons c cs =>
        simp only [List.length_cons] at hl ⊢
        cases hstep : step (c :: cs) with
        | some mr =>
          obtain ⟨m, r⟩ := mr
          have hr : r.length < cs.length + 1 := Hstep _ _ _ hstep
          simp only [reFindAllF, hstep]
          rw [ih f (Nat.lt_succ_self f) r (by omega),
            ih cs.length (by omega) r (by omega)]
        | none =>
          simp only [reFindAllF, hstep]
          exact ih f (Nat.lt_succ_self f) cs (by omega)

theorem reFindAll_cons (step : List Char → Option (List Char × List Char))
    (Hstep : ∀ l m r, step l = some (m, r) → r.length < l.length) (c : Char) (cs : List Char) :
    reFindAll step (c :: cs) =
      match step (c :: cs) with
      | some (m, r) => m :: reFindAll step r
      | none => reFindAll step cs := by
  unfold reFindAll
  cases hstep : step (c :: cs) with
  | some mr =>
    obtain ⟨m, r⟩ := mr
    have hr := Hstep _ _ _ hstep
    simp only [List.length_cons, reFindAllF, hstep]
    rw [reFindAllF_fuel step Hstep cs.length r (by simp at hr; omega)]
  | none => simp only [List.length_cons, reFindAllF, hstep]

theorem reFindAll_append_none (step : List Char → Option (List Char × List Char))
    (Hstep : ∀ l m r, step l = some (m, r) → r.length < l.length) (u w : List Char)
    (Hu : ∀ c t, c ∈ u → step (c :: t) = none) :
    reFindAll step (u ++ w) = reFindAll step w := by
  induction u with
  | nil => rfl
  | cons c u' ihu =>
    rw [List.cons_append, reFindAll_cons step Hstep,
      Hu c (u' ++ w) (List.mem_cons_self c u')]
    exact ihu (fun d t hd => Hu d t (List.mem_cons_of_mem c hd))

theorem matchLabelAt_step : ∀ l m r, matchLabelAt l = some (m, r) → r.length < l.length :=
  fun _ _ _ h => matchLabelAt_length h

theorem matchRefAt_step : ∀ l m r, matchRefAt l = some (m, r) → r.length < l.length :=
  fun _ _ _ h => matchRefAt_length h

/-! ## `pyStrip` and `splitOnChar` lemmas -/

theorem dropWhile_dropWhile (p : Char → Bool) (l : List Char) :
    (l.dropWhile p).dropWhile p = l.dropWhile p := by
  induction l with
  | nil => rfl
  | cons c t ih =>
    by_cases hc : p c = true
    · simp [List.dropWhile_cons, hc, ih]
    · simp [List.dropWhile_cons, hc]

theorem dropWhile_head_false {p : Char → Bool} {l : List Char} {c : Char} {t : List Char}
    (h : l.dropWhile p = c :: t) : p c = false := by
  induction l with
  | nil => simp at h
  | cons a l' ih =>
    by_cases ha : p a = true
    · rw [List.dropWhile_cons, if_pos ha] at h
      exact ih h
    · rw [List.dropWhile_cons, if_neg ha] at h
      injection h with h1 h2
      subst h1
      simpa using ha

theorem pyStrip_idem (s : List Char) : pyStrip (pyStrip s) = pyStrip s := by
  unfold pyStrip
  set p := pySpace with hp
  set a := s.dropWhile p with ha
  set w := a.reverse.dropWhile p with hw
  have h1 : w.reverse.dropWhile p = w.reverse := by
    have hsuf : w <:+ a.reverse := hw ▸ List.dropWhile_suffix p
    have hpre : w.reverse <+: a := by
      have := List.reverse_prefix.mpr hsuf
      simpa using this
    cases hur : w.reverse with
    | nil => simp [hur]
    | cons c t =>
      obtain ⟨r, hr⟩ := hpre
      rw [hur] at hr
      have hr' : a = c :: (t ++ r) := by rw [← hr]; rfl
      have hc : p c = false := dropWhile_head_false (p := p) (l := s) (by rw [← ha]; exact hr')
      rw [List.dropWhile_cons, if_neg (by simp [hc])]
  have h2 : w.dropWhile p = w := by rw [hw]; exact dropWhile_dropWhile p a.reverse
  rw [h1, List.reverse_reverse, h2]

theorem splitOnChar_no_sep {sep : Char} :
    ∀ {l : List Char}, (∀ c ∈ l, (c == sep) = false) → splitOnChar sep l = [l] := by
  intro l
  induction l with
  | nil => intro _; rfl
  | cons c cs ih =>
    intro h
    have hc := h c (List.mem_cons_self c cs)
    simp only [splitOnChar, hc]
    rw [ih (fun d hd => h d (List.mem_cons_of_mem c hd))]
    simp

/-! ## Membership in the extracted sets -/

theorem mem_extract_references {content m x : List Char}
    (hm : m ∈ findRefs content) (hx : x ∈ splitOnChar ',' m) :
    pyStrip x ∈ extract_references content := by
  unfold extract_references
  rw [List.mem_toFinset, List.mem_flatMap]
  exact ⟨m, hm, List.mem_map_of_mem pyStrip hx⟩

theorem extract_references_stripped {content r : List Char}
    (h : r ∈ extract_references content) : pyStrip r = r := by
  unfold extract_references at h
  rw [List.mem_toFinset, List.mem_flatMap] at h
  obtain ⟨m, _, hm⟩ := h
  rw [List.mem_map] at hm
  obtain ⟨x, _, hx⟩ := hm
  rw [← hx]
  exact pyStrip_idem x

/-! ## Equation-scan lemmas -/

theorem scanBlock_eq_some {env : List Char} :
    ∀ {ls bs rest : List (List Char)}, scanBlock env ls = some (bs, rest) →
      bs ++ rest = ls ∧ bs ≠ [] := by
  intro ls
  induction ls with
  | nil => intro bs rest h; simp [scanBlock] at h
  | cons l t ih =>
    intro bs rest h
    simp only [scanBlock] at h
    by_cases hc : containsSub l (endMarker env) = true
    · rw [if_pos hc] at h
      obtain ⟨h1, h2⟩ := Prod.mk.inj (Option.some.inj h)
      subst h1; subst h2
      simp
    · rw [if_neg hc] at h
      cases hsb : scanBlock env t with
      | some br =>
        obtain ⟨bs', rest'⟩ := br
        rw [hsb] at h
        obtain ⟨h1, h2⟩ := Prod.mk.inj (Option.some.inj h)
        subst h1; subst h2
        obtain ⟨ih1, ih2⟩ := ih hsb
        refine ⟨?_, by simp⟩
        rw [List.cons_append, ih1]
      | none => rw [hsb] at h; simp at h

theorem scanBlock_end {env : List Char} :
    ∀ {ls bs rest : List (List Char)}, scanBlock env ls = some (bs, rest) →
      ∃ lb ∈ bs, containsSub lb (endMarker env) = true := by
  intro ls
  induction ls with
  | nil => intro bs rest h; simp [scanBlock] at h
  | cons l t ih =>
    intro bs rest h
    simp only [scanBlock] at h
    by_cases hc : containsSub l (endMarker env) = true
    · rw [if_pos hc] at h
      obtain ⟨h1, _⟩ := Prod.mk.inj (Option.some.inj h)
      subst h1
      exact ⟨l, List.mem_cons_self l [], hc⟩
    · rw [if_neg hc] at h
      cases hsb : scanBlock env t with
      | some br =>
        obtain ⟨bs', rest'⟩ := br
        rw [hsb] at h
        obtain ⟨h1, _⟩ := Prod.mk.inj (Option.some.inj h)
        subst h1
        obtain ⟨lb, hmem, hend⟩ := ih hsb
        exact ⟨lb, List.mem_cons_of_mem l hmem, hend⟩
      | none => rw [hsb] at h; simp at h

theorem scanLinesF_start_lb :
    ∀ (fuel i : Nat) (ls : List (List Char)) (b : Nat × List Char × Option (List Char)),
      b ∈ scanLinesF fuel i ls → i + 1 ≤ b.1 := by
  intro fuel
  induction fuel with
  | zero => intro i ls b h; simp [scanLinesF] at h
  | succ f ih =>
    intro i ls b h
    cases ls with
    | nil => simp [scanLinesF] at h
    | cons l rest =>
      simp only [scanLinesF] at h
      cases hbe : beginEnvAt l with
      | none =>
        simp only [hbe] at h
        have := ih (i + 1) rest b h
        omega
      | some env =>
        simp only [hbe] at h
        cases hsb : scanBlock env (l :: rest) with
        | none =>
          simp only [hsb] at h
          have := ih (i + 1) rest b h
          omega
        | some br =>
          obtain ⟨bs, after⟩ := br
          simp only [hsb] at h
          rw [List.mem_cons] at h
          cases h with
          | inl hb => subst hb; simp
          | inr hb =>
            have := ih (i + bs.length) after b hb
            omega

theorem scanLinesF_no_begin :
    ∀ (fuel i : Nat) (ls : List (List Char)), (∀ l ∈ ls, beginEnvAt l = none) →
      scanLinesF fuel i ls = [] := by
  intro fuel
  induction fuel with
  | zero => intro i ls _; rfl
  | succ f ih =>
    intro i ls h
    cases ls with
    | nil => rfl
    | cons l rest =>
      simp only [scanLinesF, h l (List.mem_cons_self l rest)]
      exact ih (i + 1) rest (fun m hm => h m (List.mem_cons_of_mem l hm))

theorem scanLinesF_unterminated (env : List Char) :
    ∀ (fuel i0 : Nat) (ls : List (List Char)) (k : Nat) (lk : List Char),
      ls[k]? = some lk →
      beginEnvAt lk = some env →
      (∀ lj ∈ ls.drop k, containsSub lj (endMarker env) = false) →
      ∀ b ∈ scanLinesF fuel i0 ls, b.1 ≠ i0 + k + 1 := by
  intro fuel
  induction fuel with
  | zero => intro i0 ls k lk _ _ _ b hb; simp [scanLinesF] at hb
  | succ f ih =>
    intro i0 ls k lk h1 h2 h3 b hb
    cases ls with
    | nil => simp at h1
    | cons l rest =>
      simp only [scanLinesF] at hb
      cases hbe : beginEnvAt l with
      | none =>
        simp only [hbe] at hb
        cases k with
        | zero =>
          rw [List.getElem?_cons_zero] at h1
          rw [(Option.some.inj h1).symm, hbe] at h2
          exact absurd h2 (by simp)
        | succ k' =>
          have := ih (i0 + 1) rest k' lk (by simpa using h1) h2
            (fun lj hlj => h3 lj (by simpa using hlj)) b hb
          omega
      | some env0 =>
        simp only [hbe] at hb
        cases hsb : scanBlock env0 (l :: rest) with
        | none =>
          simp only [hsb] at hb
          cases k with
          | zero =>
            have hs := scanLinesF_start_lb f (i0 + 1) rest b hb
            omega
          | succ k' =>
            have := ih (i0 + 1) rest k' lk (by simpa using h1) h2
              (fun lj hlj => h3 lj (by simpa using hlj)) b hb
            omega
        | some br =>
          obtain ⟨bs, after⟩ := br
          simp only [hsb] at hb
          obtain ⟨happ, hbne⟩ := scanBlock_eq_some hsb
          cases k with
          | zero =>
            rw [List.getElem?_cons_zero] at h1
            rw [(Option.some.inj h1).symm, hbe] at h2
            have henv : env0 = env := Option.some.inj h2
            subst henv
            obtain ⟨lb, hlbmem, hlbend⟩ := scanBlock_end hsb
            have hmem : lb ∈ l :: rest := happ ▸ List.mem_append_left after hlbmem
            have := h3 lb (by simpa using hmem)
            rw [hlbend] at this
            simp at this
          | succ k' =>
            rw [List.mem_cons] at hb
            cases hb with
            | inl hbh => subst hbh; simp
            | inr hbt =>
              have hafter : after = (l :: rest).drop bs.length := by
                rw [← happ, List.drop_left]
              by_cases hlen : bs.length ≤ k' + 1
              · have h1' : after[k' + 1 - bs.length]? = some lk := by
                  rw [hafter, List.getElem?_drop,
                    show bs.length + (k' + 1 - bs.length) = k' + 1 by omega]
                  exact h1
                have h3' : ∀ lj ∈ after.drop (k' + 1 - bs.length),
                    containsSub lj (endMarker env) = false := by
                  intro lj hlj
                  apply h3
                  rw [hafter, List.drop_drop,
                    show bs.length + (k' + 1 - bs.length) = k' + 1 by omega] at hlj
                  exact hlj
                have := ih (i0 + bs.length) after (k' + 1 - bs.length) lk h1' h2 h3' b hbt
                omega
              · have hs := scanLinesF_start_lb f (i0 + bs.length) after b hbt
                omega

/-! ## Label bookkeeping and the unreferenced-equations loop -/

theorem lastLabel_eq_getLast? (bs : List (List Char)) :
    lastLabel bs = (bs.filterMap firstLabel).getLast? := by
  induction bs using List.reverseRecOn with
  | nil => rfl
  | append_singleton bs l ih =>
    unfold lastLabel at ih ⊢
    rw [List.foldl_append, List.filterMap_append]
    cases hfl : firstLabel l with
    | none =>
      simp only [List.foldl_cons, List.foldl_nil, hfl]
      rw [show List.filterMap firstLabel [l] = [] by simp [List.filterMap_cons, hfl]]
      rw [List.append_nil]
      exact ih
    | some m =>
      simp only [List.foldl_cons, List.foldl_nil, hfl]
      rw [show List.filterMap firstLabel [l] = [m] by simp [List.filterMap_cons, hfl]]
      rw [List.getLast?_concat]

theorem unrefEqLoop_eq (refs : Finset (List Char)) :
    ∀ (l : List (Nat × List Char × Option (List Char))),
      unrefEqLoop refs l =
        (l.filter (fun b => eqUnreferenced refs b.2.2)).map (fun b => (b.1, b.2.1)) := by
  intro l
  induction l with
  | nil => rfl
  | cons b rest ih =>
    obtain ⟨n, txt, lab⟩ := b
    simp only [unrefEqLoop]
    by_cases hu : eqUnreferenced refs lab = true
    · rw [if_pos hu]
      simp [List.filter_cons, hu, ih]
    · rw [if_neg hu]
      simp only [Bool.not_eq_true] at hu
      simp [List.filter_cons, hu, ih]

/-! ## Substring and marker lemmas -/

theorem containsSub_of_isPrefixOf {n h : List Char} (hp : n.isPrefixOf h = true) :
    containsSub h n = true := by
  cases h with
  | nil =>
    cases n with
    | nil => rfl
    | cons c t => simp [List.isPrefixOf] at hp
  | cons c t => simp [containsSub, hp]

theorem containsSub_append (n a b : List Char) : containsSub (a ++ (n ++ b)) n = true := by
  induction a with
  | nil =>
    simp only [List.nil_append]
    exact containsSub_of_isPrefixOf (List.isPrefixOf_iff_prefix.mpr ⟨b, rfl⟩)
  | cons c a' ih =>
    simp only [List.cons_append, containsSub, List.append_eq, ih, Bool.or_true]

theorem beginEnvAt_isSome_of_marker {line env : List Char} (henv : env ∈ numbered_envs)
    (hsub : containsSub line (beginMarker env) = true) :
    (beginEnvAt line).isSome = true := by
  unfold beginEnvAt
  cases hf : numbered_envs.find? (fun e => containsSub line (beginMarker e)) with
  | some e => rfl
  | none =>
    have := List.find?_eq_none.mp hf env henv
    rw [hsub] at this
    simp at this

/-! ## Scanning past match-free prefixes -/

theorem reFindAll_match (step : List Char → Option (List Char × List Char))
    (Hstep : ∀ l m r, step l = some (m, r) → r.length < l.length)
    {l m r : List Char} (h : step l = some (m, r)) :
    reFindAll step l = m :: reFindAll step r := by
  cases l with
  | nil =>
    have := Hstep [] m r h
    simp at this
  | cons c cs => rw [reFindAll_cons step Hstep, h]

theorem findLabels_construct (u name v : List Char)
    (hu : ∀ c ∈ u, c ≠ '\\') (hne : name ≠ []) (hnb : ∀ c ∈ name, (c == '}') = false) :
    findLabels (u ++ (labelHead ++ (name ++ '}' :: v))) = name :: reFindAll matchLabelAt v := by
  unfold findLabels
  rw [reFindAll_append_none matchLabelAt matchLabelAt_step u _
      (fun c t hc => matchLabelAt_not_backslash (hu c hc) t),
    reFindAll_match matchLabelAt matchLabelAt_step (matchLabelAt_construct name v hne hnb)]

theorem matchRefAt_construct (name v : List Char) (hne : name ≠ [])
    (hnb : ∀ c ∈ name, (c == '}') = false) :
    matchRefAt ('\\' :: 'r' :: 'e' :: 'f' :: '{' :: (name ++ '}' :: v)) = some (name, v) := by
  show braceArg (name ++ '}' :: v) = some (name, v)
  exact braceArg_construct name v hne hnb

theorem findRefs_construct (u name v : List Char)
    (hu : ∀ c ∈ u, c ≠ '\\') (hne : name ≠ []) (hnb : ∀ c ∈ name, (c == '}') = false) :
    findRefs (u ++ ('\\' :: 'r' :: 'e' :: 'f' :: '{' :: (name ++ '}' :: v))) =
      name :: reFindAll matchRefAt v := by
  unfold findRefs
  rw [reFindAll_append_none matchRefAt matchRefAt_step u _
      (fun c t hc => matchRefAt_not_backslash (hu c hc) t),
    reFindAll_match matchRefAt matchRefAt_step (matchRefAt_construct name v hne hnb)]

/-! ## Claim theorems -/

/-- Claim C1, counterexample: in a block containing two label declarations on
separate lines, the recorded label is the later one (`b`), not the first one
(`a`) that the claim requires. -/
theorem C1_counterexample :
    (extract_numbered_equations
        ("\\begin{equation}\n\\label{a}\n\\label{b}\n\\end{equation}".data)).map
        (fun b => b.2.2) = [some ['b']] ∧
      some (['b'] : List Char) ≠ some ['a'] :=
  ⟨by decide, by decide⟩

/-- Claim C1, amended: the label recorded for an equation block is computed
by `lastLabel`, which keeps the LAST per-line label match in line order
(within one line the first match wins); equivalently it is the last entry of
the per-line first matches.  On the two-label example the recorded label is
therefore `b`. -/
theorem C1_label_override :
    (∀ bs : List (List Char), lastLabel bs = (bs.filterMap firstLabel).getLast?) ∧
      (extract_numbered_equations
          ("\\begin{equation}\n\\label{a}\n\\label{b}\n\\end{equation}".data)).map
          (fun b => b.2.2) = [some ['b']] :=
  ⟨lastLabel_eq_getLast?, by decide⟩

/-- Claim C2, counterexample: the orchestration performs two file reads on
the happy path (one inside `find_unreferenced_labels`, a second inside
`find_unreferenced_equations`), not one. -/
theorem C2_counterexample :
    (analysisRun ⟨[]⟩ 0).2 = 2 ∧ (2 : Nat) ≠ 1 :=
  ⟨rfl, by decide⟩

/-- Claim C2, amended: on the happy path the orchestration reads the input
file exactly twice before writing the report — once inside
`find_unreferenced_labels` and once inside `find_unreferenced_equations` —
and both derived results are the pure functions of the file content. -/
theorem C2_reads_twice (f : TexFile) (reads : Nat) :
    (analysisRun f reads).2 = reads + 2 ∧
      (analysisRun f reads).1 =
        (unreferenced_labels f.content, find_unreferenced_equations f.content) :=
  ⟨rfl, rfl⟩

/-- Claim C3: for every document text, the unreferenced labels
(`labels - references`) and the declared labels that are referenced
(`labels ∩ references`) partition the declared labels: their union is the
full set of declared labels and they are disjoint. -/
theorem C3_partition (content : List Char) :
    unreferenced_labels content ∪ (extract_labels content ∩ extract_references content) =
        extract_labels content ∧
      Disjoint (unreferenced_labels content)
        (extract_labels content ∩ extract_references content) := by
  unfold unreferenced_labels
  exact ⟨Finset.sdiff_union_inter _ _, Finset.disjoint_sdiff_inter _ _⟩

/-- Claim C4: only exact environment-name tokens start a block — if no line
of the document contains an exact begin marker `\begin{env}` for one of the
recognized numbered environments, the extractor returns no block at all; in
particular a starred begin marker such as `\begin{align*}` never matches. -/
theorem C4_no_starred_blocks (content : List Char)
    (h : ∀ l ∈ splitNl content, ∀ env ∈ numbered_envs,
      containsSub l (beginMarker env) = false) :
    extract_numbered_equations content = [] := by
  unfold extract_numbered_equations
  apply scanLinesF_no_begin
  intro l hl
  unfold beginEnvAt
  exact List.find?_eq_none.mpr (fun env henv => by rw [h l hl env henv]; simp)

/-- Claim C4, witness: a starred (unnumbered) environment containing both a
label and a reference still produces no equation block. -/
theorem C4_witness :
    extract_numbered_equations
      ("\\begin{align*}\n\\label{eqx}\n\\ref{eqx}\n\\end{align*}".data) = [] :=
  C4_no_starred_blocks _ (by decide)

/-- Claim C5: the unreferenced-equations list is exactly the extracted blocks
whose label is `none` or not in the reference set, projected to
(line number, text); that filtered list is a sublist of the extracted block
list (original document order); and a block with no label is always
included. -/
theorem C5_unreferenced_equations (content : List Char) :
    find_unreferenced_equations content =
        ((extract_numbered_equations content).filter
          (fun b => eqUnreferenced (extract_references content) b.2.2)).map
          (fun b => (b.1, b.2.1)) ∧
      ((extract_numbered_equations content).filter
          (fun b => eqUnreferenced (extract_references content) b.2.2)).Sublist
        (extract_numbered_equations content) ∧
      ∀ b ∈ extract_numbered_equations content, b.2.2 = none →
        (b.1, b.2.1) ∈ find_unreferenced_equations content := by
  refine ⟨unrefEqLoop_eq _ _, List.filter_sublist _, ?_⟩
  intro b hb hnone
  show (b.1, b.2.1) ∈ unrefEqLoop (extract_references content) (extract_numbered_equations content)
  rw [unrefEqLoop_eq]
  exact List.mem_map_of_mem _ (List.mem_filter.mpr ⟨hb, by simp [hnone, eqUnreferenced]⟩)

/-- Claim C5, witness: an unlabelled equation block is reported as
unreferenced even though the document contains a reference elsewhere. -/
theorem C5_witness :
    ((1 : Nat), "\\begin{equation}\nx\n\\end{equation}".data) ∈
      find_unreferenced_equations
        ("\\begin{equation}\nx\n\\end{equation}\n\\ref{foo}".data) :=
  (C5_unreferenced_equations _).2.2
    (1, "\\begin{equation}\nx\n\\end{equation}".data, none) (by decide) rfl

/-- Claim C6: an unterminated environment is silently dropped.  If line `i`
(0-based) of the document contains a begin marker whose winning environment
is `env`, and no line from `i` to the end of the document contains the
matching end marker, then no returned block starts at line `i + 1`
(the 1-based number the extractor would have recorded). -/
theorem C6_unterminated_dropped (content : List Char) (i : Nat) (lk env : List Char)
    (h1 : (splitNl content)[i]? = some lk)
    (h2 : beginEnvAt lk = some env)
    (h3 : ∀ lj ∈ (splitNl content).drop i, containsSub lj (endMarker env) = false) :
    ∀ b ∈ extract_numbered_equations content, b.1 ≠ i + 1 := by
  intro b hb
  have := scanLinesF_unterminated env (splitNl content).length 0 (splitNl content)
    i lk h1 h2 h3 b hb
  simpa using this

/-- Claim C6, witness: a document whose only environment is never closed
yields no block starting at its begin line. -/
theorem C6_witness :
    ((1 : Nat), " x = y".data, (none : Option (List Char))) ∉
      extract_numbered_equations ("\\begin{equation}\n x = y".data) := fun hmem =>
  C6_unterminated_dropped _ 0 ("\\begin{equation}".data) ("equation".data)
    (by decide) (by decide) (by decide) _ hmem rfl

/-- Claim C7: every comma-separated element of a captured reference argument
is stripped of surrounding whitespace and added to the reference set
individually. -/
theorem C7_comma_split (content m x : List Char)
    (hm : m ∈ findRefs content) (hx : x ∈ splitOnChar ',' m) :
    pyStrip x ∈ extract_references content :=
  mem_extract_references hm hx

/-- Claim C7, witness: a single `\Cref{a, b}` marks both `a` and `b` as
referenced. -/
theorem C7_witness :
    ['a'] ∈ extract_references ("\\Cref{a, b}".data) ∧
      ['b'] ∈ extract_references ("\\Cref{a, b}".data) :=
  ⟨C7_comma_split _ ("a, b".data) ("a".data) (by decide) (by decide),
   C7_comma_split _ ("a, b".data) (" b".data) (by decide) (by decide)⟩

/-- Claim C8: when the single path argument does not resolve to an existing
file, the run ends in the not-found outcome with exit status 1 and no report
file written. -/
theorem C8_not_found (argv : List (List Char)) (prog path : List Char)
    (fileExists : List Char → Bool) (readFile : List Char → List Char)
    (hargv : argv = [prog, path]) (hex : fileExists path = false) :
    main_model argv fileExists readFile =
      { outcome := MainOutcome.fileNotFound, exitCode := 1, wroteReport := false } := by
  subst hargv
  simp [main_model, hex]

/-- Claim C8, witness: a missing `chapter1.tex` yields the not-found outcome,
exit status 1, and no report. -/
theorem C8_witness :
    main_model ["prog".data, "chapter1.tex".data] (fun _ => false) (fun _ => []) =
      { outcome := MainOutcome.fileNotFound, exitCode := 1, wroteReport := false } :=
  C8_not_found _ ("prog".data) ("chapter1.tex".data) _ _ rfl rfl

/-- Claim C9: every extracted reference is whitespace-stripped, so a declared
label whose name has surrounding whitespace inside the braces can never equal
any extracted reference and is always in the unreferenced set. -/
theorem C9_padded_label_unreferenced (content lab : List Char)
    (hlab : lab ∈ extract_labels content) (hpad : pyStrip lab ≠ lab) :
    lab ∉ extract_references content ∧ lab ∈ unreferenced_labels content := by
  have hnot : lab ∉ extract_references content := fun hmem =>
    hpad (extract_references_stripped hmem)
  exact ⟨hnot, Finset.mem_sdiff.mpr ⟨hlab, hnot⟩⟩

/-- Claim C9, witness: `\label{ a }` cited as `\ref{ a }` is still reported
as unreferenced, because the reference is stripped to `a` while the label
keeps its padding. -/
theorem C9_witness :
    (" a ".data ∉ extract_references ("\\label{ a }\\ref{ a }".data)) ∧
      " a ".data ∈ unreferenced_labels ("\\label{ a }\\ref{ a }".data) :=
  C9_padded_label_unreferenced _ _ (by decide) (by decide)

/-- Claim C10: a percent sign does not shield the extractors.  In a text
whose prefix contains a `%` (and no backslash that could start an earlier
match), a label declaration after the `%` is still extracted, a reference
command after the `%` is still extracted, and a line with a begin marker
after a `%` is still recognized as starting a block. -/
theorem C10_comments_ignored :
    (∀ u name v : List Char, (∀ c ∈ u, c ≠ '\\') → '%' ∈ u → name ≠ [] →
        (∀ c ∈ name, (c == '}') = false) →
        name ∈ extract_labels (u ++ (labelHead ++ (name ++ '}' :: v)))) ∧
      (∀ u name v : List Char, (∀ c ∈ u, c ≠ '\\') → '%' ∈ u → name ≠ [] →
        (∀ c ∈ name, (c == '}') = false) → (∀ c ∈ name, (c == ',') = false) →
        pyStrip name = name →
        name ∈ extract_references
          (u ++ ('\\' :: 'r' :: 'e' :: 'f' :: '{' :: (name ++ '}' :: v)))) ∧
      (∀ u m v env : List Char, env ∈ numbered_envs →
        (beginEnvAt (u ++ '%' :: (m ++ (beginMarker env ++ v)))).isSome = true) := by
  refine ⟨?_, ?_, ?_⟩
  · intro u name v hu hpc hne hnb
    unfold extract_labels
    rw [List.mem_toFinset, findLabels_construct u name v hu hne hnb]
    exact List.mem_cons_self _ _
  · intro u name v hu hpc hne hnb hnc hstrip
    have hm : name ∈ findRefs
        (u ++ ('\\' :: 'r' :: 'e' :: 'f' :: '{' :: (name ++ '}' :: v))) := by
      rw [findRefs_construct u name v hu hne hnb]
      exact List.mem_cons_self _ _
    have hx : name ∈ splitOnChar ',' name := by
      rw [splitOnChar_no_sep hnc]
      exact List.mem_cons_self _ _
    have := mem_extract_references hm hx
    rwa [hstrip] at this
  · intro u m v env henv
    apply beginEnvAt_isSome_of_marker henv
    have := containsSub_append (beginMarker env) (u ++ '%' :: m) v
    simpa [List.append_assoc] using this

/-- Claim C10, witness: after a `% ` prefix, `\label{x}` is declared,
`\ref{y}` is referenced, and a `\begin{equation}` line is block-starting. -/
theorem C10_witness :
    ['x'] ∈ extract_labels ("% ".data ++ (labelHead ++ (['x'] ++ '}' :: []))) ∧
      ['y'] ∈ extract_references
        ("% ".data ++ ('\\' :: 'r' :: 'e' :: 'f' :: '{' :: (['y'] ++ '}' :: []))) ∧
      (beginEnvAt ([] ++ '%' :: ([] ++ (beginMarker ("equation".data) ++ [])))).isSome = true :=
  ⟨C10_comments_ignored.1 ("% ".data) ['x'] [] (by decide) (by decide) (by decide) (by decide),
   C10_comments_ignored.2.1 ("% ".data) ['y'] [] (by decide) (by decide) (by decide) (by decide)
     (by decide) (by decide),
   C10_comments_ignored.2.2 [] [] [] ("equation".data) (by decide)⟩

end Labeled4Nothing
